import Mathlib

/-
  Verification development for the client_utils repository.

  Shallow embedding of the CRDT primitives in src/crdt.rs and the
  pathfinding and navigation layer in src/lib.rs and src/behaviors.rs.

  Modelling conventions:
  - Rust i64 timestamps are modelled as Int; the i64 extremes used as
    sentinels are the explicit constants i64Max and i64Min.
  - BTreeMap is modelled as an association list ordered by strictly
    increasing keys; iteration in the Rust code walks keys in ascending
    order, which matches a left fold over the list.
  - IndexMap as used by astar is only ever read through get and written
    through insert, so it is modelled as an association list with
    first-match lookup and replace-or-append insertion.
  - f32 scores in astar are sums of the integers 1 and 10, hence exact;
    the heap key score + sqrt of the squared distance is modelled exactly
    over the reals by an integer decision procedure for comparisons of
    the form s1 + sqrt h1 < s2 + sqrt h2.
-/

def i64Max : Int := 2 ^ 63 - 1

def i64Min : Int := -(2 ^ 63)

/-- Rust PartialOrd comparison of Option values: None sorts below Some. -/
def optLtB {α : Type} [LinearOrder α] : Option α → Option α → Bool
  | none, none => false
  | none, some _ => true
  | some _, none => false
  | some x, some y => decide (x < y)

/-- ExpiringFWWRegister of src/crdt.rs: at most one value with its written
and expires timestamps. -/
structure ExpiringFWWRegister (α : Type) where
  value : Option α
  written : Int
  expires : Int
deriving DecidableEq, Repr

/-- The Default impl of ExpiringFWWRegister. -/
def ExpiringFWWRegister.default (α : Type) : ExpiringFWWRegister α :=
  ⟨none, i64Max, i64Min⟩

/-- ExpiringFWWRegister.set of src/crdt.rs. -/
def ExpiringFWWRegister.set {α : Type} [LinearOrder α]
    (r : ExpiringFWWRegister α) (v : α) (now expires : Int) :
    ExpiringFWWRegister α :=
  if some v = r.value then
    { r with written := min r.written now, expires := max r.expires expires }
  else if r.value = none ∨ now < r.written ∨
      (now = r.written ∧ optLtB (some v) r.value = true) then
    ⟨some v, now, expires⟩
  else
    r

/-- ExpiringFWWRegister.merge of src/crdt.rs (self merged with other). -/
def ExpiringFWWRegister.merge {α : Type} [LinearOrder α]
    (self other : ExpiringFWWRegister α) : ExpiringFWWRegister α :=
  if other.value.isSome then
    if other.written < self.written ∨
        (other.written = self.written ∧ optLtB other.value self.value = true) then
      ⟨other.value, other.written, other.expires⟩
    else if self.value = other.value then
      { self with written := min self.written other.written,
                  expires := max self.expires other.expires }
    else
      self
  else
    self

/-- ExpiringFWWRegister.cleanup of src/crdt.rs: reset once now >= expires. -/
def ExpiringFWWRegister.cleanup {α : Type}
    (r : ExpiringFWWRegister α) (now : Int) : ExpiringFWWRegister α :=
  if r.expires ≤ now then ⟨none, i64Max, i64Min⟩ else r

/-- ExpiringSet of src/crdt.rs: BTreeMap from element to expiry, modelled
as a key-ordered association list. -/
structure ExpiringSet (α : Type) where
  entries : List (α × Int)
deriving DecidableEq, Repr

/-- ExpiringSet.cleanup of src/crdt.rs: the retain predicate in the source
is expires < now. -/
def ExpiringSet.cleanup {α : Type}
    (s : ExpiringSet α) (now : Int) : ExpiringSet α :=
  ⟨s.entries.filter (fun p => p.2 < now)⟩

/-- First-match lookup in an association list (BTreeMap get, IndexMap get). -/
def alGet {α β : Type} [DecidableEq α] (k : α) : List (α × β) → Option β
  | [] => none
  | p :: t => if p.1 = k then some p.2 else alGet k t

/-- Ordered insert-or-replace, the BTreeMap insert on the ordered-list model. -/
def alInsert {α β : Type} [LinearOrder α] (k : α) (v : β) :
    List (α × β) → List (α × β)
  | [] => [(k, v)]
  | p :: t =>
    if k < p.1 then (k, v) :: p :: t
    else if k = p.1 then (k, v) :: t
    else p :: alInsert k v t

/-- Remove the first entry with the given key (BTreeMap remove). -/
def alErase {α β : Type} [DecidableEq α] (k : α) :
    List (α × β) → List (α × β)
  | [] => []
  | p :: t => if p.1 = k then t else p :: alErase k t

/-- SizedFWWExpiringSet of src/crdt.rs: BTreeMap from element to the pair
(written, expires), plus the capacity. -/
structure SizedFWWExpiringSet (α : Type) where
  entries : List (α × Int × Int)
  cap : Nat
deriving DecidableEq, Repr

/-- SizedFWWExpiringSet.new. -/
def SizedFWWExpiringSet.new (α : Type) (size : Nat) : SizedFWWExpiringSet α :=
  ⟨[], size⟩

/-- SizedFWWExpiringSet.insert of src/crdt.rs: a present key only has its
expires updated; an absent key is inserted only under capacity. -/
def SizedFWWExpiringSet.insert {α : Type} [LinearOrder α] [DecidableEq α]
    (s : SizedFWWExpiringSet α) (v : α) (now expires : Int) :
    SizedFWWExpiringSet α :=
  match alGet v s.entries with
  | some _ =>
    { s with entries :=
        s.entries.map (fun q => if q.1 = v then (q.1, q.2.1, expires) else q) }
  | none =>
    if s.entries.length < s.cap then
      { s with entries := alInsert v (now, expires) s.entries }
    else
      s

/-- The qualification condition of the eviction loop in
SizedFWWExpiringSet.merge: a member may be evicted for an incoming entry
with written w and value v when its written is strictly greater, ties
broken by value ordering. -/
abbrev qualifies {α : Type} [LinearOrder α] (w : Int) (v : α)
    (p : α × Int × Int) : Prop :=
  p.2.1 > w ∨ (p.2.1 = w ∧ p.1 > v)

/-- One iteration of the eviction scan inside SizedFWWExpiringSet.merge,
translated verbatim: the fold state is the pair of the oldest candidate
and oldest_written.  Note the source assigns Some(t), not
Some(local_written), when updating. -/
def evictStep {α : Type} [LinearOrder α] (w : Int) (v : α)
    (st : Option α × Option Int) (p : α × Int × Int) : Option α × Option Int :=
  if qualifies w v p then
    match st.2 with
    | some t => if t < p.2.1 then (some p.1, some t) else st
    | none => (some p.1, some p.2.1)
  else st

/-- The eviction scan inside SizedFWWExpiringSet.merge. -/
def evictScan {α : Type} [LinearOrder α] (w : Int) (v : α)
    (l : List (α × Int × Int)) : Option α × Option Int :=
  l.foldl (evictStep w v) (none, none)

/-- One iteration of the merge loop of SizedFWWExpiringSet.merge, processing
a single entry of the other replica. -/
def SizedFWWExpiringSet.mergeEntry {α : Type} [LinearOrder α] [DecidableEq α]
    (s : SizedFWWExpiringSet α) (p : α × Int × Int) : SizedFWWExpiringSet α :=
  match alGet p.1 s.entries with
  | some _ =>
    { s with entries :=
        s.entries.map (fun q =>
          if q.1 = p.1 then (q.1, min p.2.1 q.2.1, max p.2.2 q.2.2) else q) }
  | none =>
    if s.entries.length < s.cap then
      { s with entries := alInsert p.1 p.2 s.entries }
    else
      match (evictScan p.2.1 p.1 s.entries).1 with
      | some o => { s with entries := alInsert p.1 p.2 (alErase o s.entries) }
      | none => s

/-- SizedFWWExpiringSet.merge of src/crdt.rs: fold every entry of the other
replica, in ascending key order, into self. -/
def SizedFWWExpiringSet.merge {α : Type} [LinearOrder α] [DecidableEq α]
    (s other : SizedFWWExpiringSet α) : SizedFWWExpiringSet α :=
  other.entries.foldl SizedFWWExpiringSet.mergeEntry s

/-- SizedFWWExpiringSet.cleanup of src/crdt.rs: retain expires > now. -/
def SizedFWWExpiringSet.cleanup {α : Type}
    (s : SizedFWWExpiringSet α) (now : Int) : SizedFWWExpiringSet α :=
  { s with entries := s.entries.filter (fun q => q.2.2 > now) }

/-- Loc of src/lib.rs: a pair of i32 coordinates, modelled over Int. -/
structure Loc where
  x : Int
  y : Int
deriving DecidableEq, Repr

/-- The derived lexicographic order on Loc (field order x then y). -/
def locLtB (a b : Loc) : Bool :=
  decide (a.x < b.x) || (decide (a.x = b.x) && decide (a.y < b.y))

/-- Squared Euclidean distance between two locations; distance in the
source is the f32 square root of this quantity. -/
def sqDist (a b : Loc) : Nat :=
  ((a.x - b.x) * (a.x - b.x) + (a.y - b.y) * (a.y - b.y)).toNat

/-- A heap key of astar, the pair of the integer score part and the squared
distance, denoting the real number score + sqrt of the squared distance. -/
def FKey : Type := Nat × Nat
deriving DecidableEq, Repr

/-- Exact decision of s1 + sqrt h1 < s2 + sqrt h2 over the reals, by
integer arithmetic.  With d = s2 - s1: for d >= 0 the inequality is
h1 - d * d - h2 < 2 * d * sqrt h2, settled by sign and squaring; for
d < 0 it is 2 * (-d) * sqrt h1 < h2 - h1 - d * d, settled the same way. -/
def fltB (a b : FKey) : Bool :=
  let s1 : Int := a.1
  let h1 : Int := a.2
  let s2 : Int := b.1
  let h2 : Int := b.2
  let d := s2 - s1
  if 0 ≤ d then
    let L := h1 - d * d - h2
    if L < 0 then true else decide (L * L < 4 * d * d * h2)
  else
    let M := h2 - h1 - d * d
    if M ≤ 0 then false else decide (4 * d * d * h1 < M * M)

/-- The order in which the open-set BinaryHeap of Reverse pairs delivers
entries: ascending f value, ties broken by the Loc order. -/
def keyLt (a b : FKey × Loc) : Bool :=
  fltB a.1 b.1 || (!fltB a.1 b.1 && !fltB b.1 a.1 && locLtB a.2 b.2)

/-- Remove the first occurrence of an element from a list. -/
def eraseFirst {α : Type} [DecidableEq α] (x : α) : List α → List α
  | [] => []
  | e :: t => if e = x then t else e :: eraseFirst x t

/-- BinaryHeap pop on the open-set model: extract the minimal entry under
keyLt.  All stored entries are pairwise distinct, so which instance a heap
would surface among equals never matters. -/
def popMin (l : List (FKey × Loc)) : Option ((FKey × Loc) × List (FKey × Loc)) :=
  match l with
  | [] => none
  | e :: t =>
    let m := t.foldl (fun best x => if keyLt x best then x else best) e
    some (m, eraseFirst m (e :: t))

/-- IndexMap insert: replace the value at the key or append a fresh entry. -/
def upsert {α β : Type} [DecidableEq α] (k : α) (v : β) :
    List (α × β) → List (α × β)
  | [] => [(k, v)]
  | p :: t => if p.1 = k then (k, v) :: t else p :: upsert k v t

/-- The search state of astar: the open-set heap, the g_scores map and the
came_from map. -/
structure AState where
  openSet : List (FKey × Loc)
  gScores : List (Loc × Nat)
  cameFrom : List (Loc × Loc)

/-- The neighbour check of astar: known-passable-or-unknown and not in the
hard-blocked set. -/
def passOk (expl : Loc → Option Bool) (blocked : Loc → Bool) (n : Loc) : Bool :=
  ((expl n).getD true) && !(blocked n)

/-- Stand-in for f32 MAX: the unwrap_or default of a missing g_score.  The
source adds 1.0 to it, which saturates at f32 MAX, so the model reuses the
same constant for the missing-score base.  No reachable state reads it. -/
def FMAX : Nat := 2 ^ 128

/-- Processing of one neighbour offset inside the expansion loop of astar. -/
def expandOne (cl : Loc) (expl : Loc → Option Bool) (blocked avoid : Loc → Bool)
    (loc : Loc) (base : Nat) (st : AState) (off : Int × Int) : AState :=
  let n : Loc := ⟨loc.x + off.1, loc.y + off.2⟩
  if passOk expl blocked n then
    let score := base + (if avoid n then 10 else 0)
    if score < (alGet n st.gScores).getD FMAX then
      let came := upsert n loc st.cameFrom
      let g := upsert n score st.gScores
      let f : FKey := (score, sqDist cl n)
      let oset :=
        if st.openSet.any (fun e => e.2 = n) then st.openSet
        else (f, n) :: st.openSet
      ⟨oset, g, came⟩
    else st
  else st

/-- The eight neighbour offsets in the iteration order of the source
(dx from -1 to 1, dy from -1 to 1, skipping dx = dy = 0). -/
def offsets : List (Int × Int) :=
  [(-1, -1), (-1, 0), (-1, 1), (0, -1), (0, 1), (1, -1), (1, 0), (1, 1)]

/-- The full expansion of a popped node over all eight offsets. -/
def expandAll (cl : Loc) (expl : Loc → Option Bool) (blocked avoid : Loc → Bool)
    (loc : Loc) (base : Nat) (st : AState) : AState :=
  offsets.foldl (expandOne cl expl blocked avoid loc base) st

/-- Path reconstruction of astar: follow came_from links from the matched
node, pushing each predecessor.  The chase is fuelled; one step per stored
link suffices for the chains the search builds. -/
def reconstruct (came : List (Loc × Loc)) : Loc → Nat → List Loc
  | _, 0 => []
  | cur, n + 1 =>
    match alGet cur came with
    | some p => p :: reconstruct came p n
    | none => []

/-- The main loop of astar, fuelled.  Each iteration pops the minimal open
entry, returns the reconstructed path when it matches the current location,
and otherwise expands its neighbours. -/
def astarLoop (cl : Loc) (expl : Loc → Option Bool) (blocked avoid : Loc → Bool) :
    Nat → AState → Option (List Loc)
  | 0, _ => none
  | fuel + 1, st =>
    match popMin st.openSet with
    | none => none
    | some ((_, loc), rest) =>
      if loc = cl then
        some (reconstruct st.cameFrom loc (st.cameFrom.length + 1))
      else
        let base :=
          match alGet loc st.gScores with
          | some s => s + 1
          | none => FMAX
        astarLoop cl expl blocked avoid fuel
          (expandAll cl expl blocked avoid loc base ⟨rest, st.gScores, st.cameFrom⟩)

/-- astar of src/lib.rs: search backward from the goal to the current
location.  The open set is seeded with the goal keyed by the heuristic
alone, g_scores with goal at 0.  The loop fuel is far beyond what any
statement below consumes. -/
def astar (cl goal : Loc) (expl : Loc → Option Bool) (blocked avoid : Loc → Bool) :
    Option (List Loc) :=
  astarLoop cl expl blocked avoid 1000
    ⟨[((0, sqDist cl goal), goal)], [(goal, 0)], []⟩

/-- Consumption of the updated path cache at the end of move_towards:
pop_front yields the next step when the path is nonempty. -/
def consume (o : Option (List Loc)) : Option Loc × Option (List Loc) :=
  match o with
  | some (l :: rest) => (some l, some rest)
  | some [] => (none, some [])
  | none => (none, none)

/-- astar_update_path of src/behaviors.rs: recompute the cache when it is
absent or some cached waypoint is blocked or to be avoided. -/
def astarUpdatePath (cl goal : Loc) (expl : Loc → Option Bool)
    (blocked avoid : Loc → Bool) (path : Option (List Loc)) :
    Option (List Loc) :=
  match path with
  | some locs =>
    if locs.any (fun l => blocked l || avoid l) then
      astar cl goal expl blocked avoid
    else some locs
  | none => astar cl goal expl blocked avoid

/-- move_towards of src/behaviors.rs, restricted to its path-cache logic:
drop the cache when its last element differs from the goal, run
astar_update_path, then pop the front of the cache as the next step.  The
Walk action lookup and Command construction are external glue; the first
component is the location the issued command targets. -/
def moveTowards (cl : Loc) (path : Option (List Loc)) (expl : Loc → Option Bool)
    (blocked avoid : Loc → Bool) (goal : Loc) :
    Option Loc × Option (List Loc) :=
  let path1 : Option (List Loc) :=
    match path with
    | some p => if p.getLast? ≠ some goal then none else some p
    | none => none
  consume (astarUpdatePath cl goal expl blocked avoid path1)

/-- C1: the claim says cleanup drops exactly the entries whose expiry has
passed, retaining every entry with expiry strictly beyond now.  The source
retain predicate is expires < now, which does the opposite: an element with
expiry 5 is dropped by cleanup at now = 0, and an element with expiry 0 is
retained by cleanup at now = 5. -/
theorem C1_expiringSet_cleanup_keeps_expired :
    (ExpiringSet.cleanup ⟨[((0 : Nat), 5)]⟩ 0).entries = [] ∧
    (ExpiringSet.cleanup ⟨[((0 : Nat), 0)]⟩ 5).entries = [(0, 0)] := by
  decide

/-- C2: the claim says merge of every CRDT primitive is commutative and
associative.  For ExpiringFWWRegister it is not commutative: when both
replicas hold the same value, merging the later write into the earlier one
keeps the larger expires, while the opposite order overwrites it, because
the earlier-write branch runs before the equal-value branch. -/
theorem C2_register_merge_not_commutative :
    ExpiringFWWRegister.merge ⟨some (0 : Nat), 1, 10⟩ ⟨some 0, 0, 5⟩ ≠
      ExpiringFWWRegister.merge ⟨some (0 : Nat), 0, 5⟩ ⟨some 0, 1, 10⟩ ∧
    (ExpiringFWWRegister.merge ⟨some (0 : Nat), 1, 10⟩ ⟨some 0, 0, 5⟩).expires = 5 ∧
    (ExpiringFWWRegister.merge ⟨some (0 : Nat), 0, 5⟩ ⟨some 0, 1, 10⟩).expires = 10 := by
  decide

/-- C3: the claim says merging the same other replica a second time leaves
the first merge result unchanged.  For SizedFWWExpiringSet it does not:
with capacity 3, merging the replica with entries 3 and 4 into the replica
with entries 0, 1, 2 and then merging it again changes the state, because
the eviction scan pairs the retained oldest_written with a later member. -/
theorem C3_sizedFWW_remerge_changes_state :
    SizedFWWExpiringSet.merge
        (SizedFWWExpiringSet.merge
          ⟨[((0 : Nat), 6, 100), (1, 9, 100), (2, 10, 100)], 3⟩
          ⟨[(3, 7, 100), (4, 0, 100)], 3⟩)
        ⟨[(3, 7, 100), (4, 0, 100)], 3⟩ ≠
      SizedFWWExpiringSet.merge
        ⟨[((0 : Nat), 6, 100), (1, 9, 100), (2, 10, 100)], 3⟩
        ⟨[(3, 7, 100), (4, 0, 100)], 3⟩ := by
  decide

/-- C4 counterexample: the claim says that at capacity the newest
qualifying occupant is evicted by an arriving entry, both on insert and on
merge.  Both parts fail on the source: merging the entry 3 written at 0
into the full set holding 0 at 5, 1 at 7 and 2 at 6 evicts member 2
(written 6) while the newest qualifying member 1 (written 7) stays; and
insert at capacity never evicts, dropping value 0 written at 0 even though
the sole member is written later at 5. -/
theorem C4_eviction_counterexample :
    (SizedFWWExpiringSet.merge
        ⟨[((0 : Nat), 5, 100), (1, 7, 100), (2, 6, 100)], 3⟩
        ⟨[(3, 0, 100)], 3⟩).entries
      = [(0, 5, 100), (1, 7, 100), (3, 0, 100)] ∧
    SizedFWWExpiringSet.insert ⟨[((1 : Nat), 5, 10)], 1⟩ 0 0 10
      = ⟨[(1, 5, 10)], 1⟩ := by
  decide

set_option maxRecDepth 100000 in
/-- C9: with the agent at the origin, the goal three tiles east, a fully
known all-passable map and empty blocked and avoid sets, astar returns
exactly the three-step path along the x axis, whose first step targets
the tile at x = 1. -/
theorem C9_astar_straight_line :
    astar ⟨0, 0⟩ ⟨3, 0⟩ (fun _ => some true) (fun _ => false) (fun _ => false)
      = some [⟨1, 0⟩, ⟨2, 0⟩, ⟨3, 0⟩] := by
  decide

/-- C7 counterexample: the claim says no location of a returned path is in
the blocked set.  Searching from the origin to the adjacent goal with the
goal itself blocked still returns the path consisting of the goal, because
the goal enters the open set before any passability or blocked check. -/
theorem C7_blocked_goal_counterexample :
    astar ⟨0, 0⟩ ⟨1, 0⟩ (fun _ => none) (fun l => decide (l = ⟨1, 0⟩))
        (fun _ => false) = some [⟨1, 0⟩] ∧
    ([(⟨1, 0⟩ : Loc)].any (fun l => decide (l = ⟨1, 0⟩))) = true := by
  decide

/-- C10: whenever the current location equals the goal, astar returns Some
of the empty path, for every map and every blocked and avoid set, because
the start node is popped and matched before any passability or blocked
check is applied. -/
theorem C10_astar_at_goal_empty_path (cl : Loc) (expl : Loc → Option Bool)
    (blocked avoid : Loc → Bool) :
    astar cl cl expl blocked avoid = some [] := by
  show astarLoop cl expl blocked avoid 1000
      ⟨[((0, sqDist cl cl), cl)], [(cl, 0)], []⟩ = some []
  rw [show (1000 : Nat) = 999 + 1 from rfl]
  simp [astarLoop, popMin, eraseFirst, reconstruct, alGet]

/-- C6: a register holding value a written at time 0 still yields a after
merging a replica holding b written at time 1, and when both replicas carry
equal written timestamps and different values the merge keeps the value
that sorts smaller (lexicographically smaller for strings). -/
theorem C6_register_first_write_wins :
    ((((ExpiringFWWRegister.default String).set "a" 0 3).merge
        ((ExpiringFWWRegister.default String).set "b" 1 3)).value = some "a") ∧
    (∀ (α : Type) [LinearOrder α] (va vb : α) (w ea eb : Int), va ≠ vb →
      (ExpiringFWWRegister.merge ⟨some va, w, ea⟩ ⟨some vb, w, eb⟩).value
        = some (min va vb)) := by
  constructor
  · have ha : (ExpiringFWWRegister.default String).set "a" 0 3
        = ⟨some "a", 0, 3⟩ := by
      unfold ExpiringFWWRegister.set ExpiringFWWRegister.default
      rw [if_neg (by simp), if_pos (Or.inl rfl)]
    have hb : (ExpiringFWWRegister.default String).set "b" 1 3
        = ⟨some "b", 1, 3⟩ := by
      unfold ExpiringFWWRegister.set ExpiringFWWRegister.default
      rw [if_neg (by simp), if_pos (Or.inl rfl)]
    rw [ha, hb]
    unfold ExpiringFWWRegister.merge
    rw [if_pos (by simp), if_neg (by simp), if_neg (by simp)]
  · intro α _ va vb w ea eb hne
    unfold ExpiringFWWRegister.merge
    rcases lt_trichotomy va vb with h | h | h
    · rw [if_pos (by simp), if_neg, if_neg]
      · simp [min_eq_left h.le]
      · simp [hne]
      · simp [optLtB, not_lt_of_lt h]
    · exact absurd h hne
    · rw [if_pos (by simp), if_pos]
      · simp [min_eq_right h.le]
      · right
        exact ⟨rfl, by simp [optLtB, h]⟩

/-- Witness for C6: the tie-break part applied at the concrete registers
holding 2 and 1 with equal written timestamps. -/
theorem C6_register_first_write_wins_witness :
    (2 : Nat) ≠ 1 ∧
    (ExpiringFWWRegister.merge ⟨some (2 : Nat), 0, 7⟩ ⟨some 1, 0, 9⟩).value
      = some 1 := by
  refine ⟨by decide, ?_⟩
  have h := C6_register_first_write_wins.2 Nat 2 1 0 7 9 (by decide)
  simpa using h

/-- C8: the navigation helper invalidates the cached path exactly as
specified.  When the cached path ends somewhere other than the goal, or
some cached waypoint lies in the blocked or avoid set, the consumed path is
the result of a fresh astar call; a cache failing both conditions is
consumed unchanged, with no dependence on the pathfinder. -/
theorem C8_moveTowards_cache_invalidation :
    (∀ (cl goal : Loc) (p : List Loc) (expl : Loc → Option Bool)
        (blocked avoid : Loc → Bool),
      p.getLast? ≠ some goal →
      moveTowards cl (some p) expl blocked avoid goal
        = consume (astar cl goal expl blocked avoid)) ∧
    (∀ (cl goal : Loc) (p : List Loc) (expl : Loc → Option Bool)
        (blocked avoid : Loc → Bool),
      p.getLast? = some goal →
      p.any (fun l => blocked l || avoid l) = true →
      moveTowards cl (some p) expl blocked avoid goal
        = consume (astar cl goal expl blocked avoid)) ∧
    (∀ (cl goal : Loc) (p : List Loc) (expl : Loc → Option Bool)
        (blocked avoid : Loc → Bool),
      p.getLast? = some goal →
      p.any (fun l => blocked l || avoid l) = false →
      moveTowards cl (some p) expl blocked avoid goal = consume (some p)) := by
  refine ⟨?_, ?_, ?_⟩ <;> intro cl goal p expl blocked avoid h
  · simp [moveTowards, astarUpdatePath, h]
  · intro hbad
    simp [moveTowards, astarUpdatePath, h, hbad]
  · intro hbad
    simp [moveTowards, astarUpdatePath, h, hbad]

/-- Witness for C8: the untouched-cache case applied to the single-step
cache toward the adjacent goal with empty blocked and avoid sets. -/
theorem C8_moveTowards_cache_invalidation_witness :
    ([(⟨1, 0⟩ : Loc)].getLast? = some ⟨1, 0⟩) ∧
    ([(⟨1, 0⟩ : Loc)].any (fun l => (fun _ : Loc => false) l
        || (fun _ : Loc => false) l) = false) ∧
    moveTowards ⟨0, 0⟩ (some [⟨1, 0⟩]) (fun _ => some true)
        (fun _ => false) (fun _ => false) ⟨1, 0⟩
      = (some ⟨1, 0⟩, some []) := by
  refine ⟨by decide, by decide, ?_⟩
  have h := C8_moveTowards_cache_invalidation.2.2 ⟨0, 0⟩ ⟨1, 0⟩ [⟨1, 0⟩]
    (fun _ => some true) (fun _ => false) (fun _ => false) (by decide) (by decide)
  simpa [consume] using h

lemma alInsert_length_le {α β : Type} [LinearOrder α] (k : α) (v : β)
    (l : List (α × β)) : (alInsert k v l).length ≤ l.length + 1 := by
  induction l with
  | nil => simp [alInsert]
  | cons p t ih =>
    simp only [alInsert]
    split
    · simp
    · split
      · simp
      · simpa using Nat.succ_le_succ ih

lemma alErase_length_of_mem {α β : Type} [DecidableEq α] (k : α)
    (l : List (α × β)) (h : ∃ p ∈ l, p.1 = k) :
    (alErase k l).length + 1 = l.length := by
  induction l with
  | nil => simp at h
  | cons p t ih =>
    simp only [alErase]
    split
    · simp
    · rename_i hne
      obtain ⟨q, hq, hqk⟩ := h
      rcases List.mem_cons.mp hq with rfl | hq
      · exact absurd hqk hne
      · simpa using ih ⟨q, hq, hqk⟩

lemma evictStep_fst {α : Type} [LinearOrder α] (w : Int) (v : α)
    (st : Option α × Option Int) (p : α × Int × Int) :
    (evictStep w v st p).1 = st.1 ∨
      ((evictStep w v st p).1 = some p.1 ∧ qualifies w v p) := by
  unfold evictStep
  by_cases hq : qualifies w v p
  · rw [if_pos hq]
    cases h2 : st.2 with
    | none => exact Or.inr ⟨rfl, hq⟩
    | some t =>
      by_cases hlt : t < p.2.1
      · simp [hlt, hq]
      · simp [hlt]
  · rw [if_neg hq]
    exact Or.inl rfl

lemma evictScan_fold_mem {α : Type} [LinearOrder α] (w : Int) (v : α) (o : α) :
    ∀ (l : List (α × Int × Int)) (st : Option α × Option Int),
      (l.foldl (evictStep w v) st).1 = some o →
      (∃ p ∈ l, p.1 = o ∧ qualifies w v p) ∨ st.1 = some o := by
  intro l
  induction l with
  | nil => intro st h; exact Or.inr h
  | cons p t ih =>
    intro st h
    rw [List.foldl_cons] at h
    rcases ih (evictStep w v st p) h with ⟨q, hq, hqo, hqual⟩ | hst
    · exact Or.inl ⟨q, List.mem_cons_of_mem p hq, hqo, hqual⟩
    · rcases evictStep_fst w v st p with heq | ⟨heq, hqual⟩
      · exact Or.inr (heq ▸ hst)
      · rw [heq] at hst
        exact Or.inl ⟨p, List.mem_cons_self p t, (Option.some_inj.mp hst).symm ▸ rfl, hqual⟩

lemma evictScan_mem {α : Type} [LinearOrder α] (w : Int) (v : α) (o : α)
    (l : List (α × Int × Int)) (h : (evictScan w v l).1 = some o) :
    ∃ p ∈ l, p.1 = o ∧ qualifies w v p := by
  rcases evictScan_fold_mem w v o l (none, none) h with h | h
  · exact h
  · simp at h

lemma mergeEntry_cap {α : Type} [LinearOrder α] [DecidableEq α]
    (s : SizedFWWExpiringSet α) (p : α × Int × Int) :
    (s.mergeEntry p).cap = s.cap := by
  unfold SizedFWWExpiringSet.mergeEntry
  split
  · rfl
  · split
    · rfl
    · split
      · rfl
      · rfl

lemma mergeEntry_length {α : Type} [LinearOrder α] [DecidableEq α]
    (s : SizedFWWExpiringSet α) (p : α × Int × Int)
    (h : s.entries.length ≤ s.cap) :
    (s.mergeEntry p).entries.length ≤ s.cap := by
  unfold SizedFWWExpiringSet.mergeEntry
  split
  · simpa using h
  · split
    · rename_i hlt
      calc (alInsert p.1 p.2 s.entries).length ≤ s.entries.length + 1 :=
            alInsert_length_le _ _ _
        _ ≤ s.cap := hlt
    · split
      · rename_i o hscan
        obtain ⟨q, hq, hqo, _⟩ := evictScan_mem _ _ _ _ hscan
        calc (alInsert p.1 p.2 (alErase o s.entries)).length
            ≤ (alErase o s.entries).length + 1 := alInsert_length_le _ _ _
          _ = s.entries.length := alErase_length_of_mem o s.entries ⟨q, hq, hqo⟩
          _ ≤ s.cap := h
      · exact h

lemma merge_cap_length {α : Type} [LinearOrder α] [DecidableEq α]
    (other s : SizedFWWExpiringSet α) (h : s.entries.length ≤ s.cap) :
    (s.merge other).entries.length ≤ s.cap ∧ (s.merge other).cap = s.cap := by
  unfold SizedFWWExpiringSet.merge
  induction other.entries generalizing s with
  | nil => exact ⟨h, rfl⟩
  | cons p t ih =>
    rw [List.foldl_cons]
    have hc := mergeEntry_cap s p
    have hl := mergeEntry_length s p h
    have := ih (s.mergeEntry p) (hc ▸ hl)
    exact ⟨hc ▸ this.1, hc ▸ this.2⟩

/-- C5: the number of stored elements of a SizedFWWExpiringSet never
exceeds its capacity: a fresh set is empty, and insert, merge with any
other replica, and cleanup all preserve the bound, while leaving the
capacity itself unchanged. -/
theorem C5_capacity_invariant {α : Type} [LinearOrder α] [DecidableEq α]
    (c : Nat) (s other : SizedFWWExpiringSet α) (v : α) (now e t : Int)
    (h : s.entries.length ≤ s.cap) :
    (SizedFWWExpiringSet.new α c).entries.length ≤ c ∧
    ((s.insert v now e).entries.length ≤ s.cap ∧ (s.insert v now e).cap = s.cap) ∧
    ((s.merge other).entries.length ≤ s.cap ∧ (s.merge other).cap = s.cap) ∧
    ((s.cleanup t).entries.length ≤ s.cap ∧ (s.cleanup t).cap = s.cap) := by
  refine ⟨by simp [SizedFWWExpiringSet.new], ⟨?_, ?_⟩, merge_cap_length other s h, ⟨?_, rfl⟩⟩
  · unfold SizedFWWExpiringSet.insert
    split
    · simpa using h
    · split
      · rename_i hlt
        calc (alInsert v (now, e) s.entries).length ≤ s.entries.length + 1 :=
              alInsert_length_le _ _ _
          _ ≤ s.cap := hlt
      · exact h
  · unfold SizedFWWExpiringSet.insert
    split
    · rfl
    · split
      · rfl
      · rfl
  · calc (s.cleanup t).entries.length ≤ s.entries.length :=
        List.length_filter_le _ _
      _ ≤ s.cap := h

/-- Witness for C5: the bound instantiated on a concrete capacity-2 set at
capacity, merged with a two-entry replica. -/
theorem C5_capacity_invariant_witness :
    ([((0 : Nat), 1, 10), (1, 2, 10)] : List (Nat × Int × Int)).length ≤ 2 ∧
    (SizedFWWExpiringSet.merge ⟨[((0 : Nat), 1, 10), (1, 2, 10)], 2⟩
      ⟨[(2, 0, 10), (3, 5, 10)], 2⟩).entries.length ≤ 2 := by
  refine ⟨by decide, ?_⟩
  have h := C5_capacity_invariant 2 ⟨[((0 : Nat), 1, 10), (1, 2, 10)], 2⟩
    ⟨[(2, 0, 10), (3, 5, 10)], 2⟩ 0 0 0 0 (by decide)
  exact h.2.2.1.1

lemma alGet_alInsert_self {α β : Type} [LinearOrder α] [DecidableEq α]
    (k : α) (v : β) (l : List (α × β)) : alGet k (alInsert k v l) = some v := by
  induction l with
  | nil => simp [alInsert, alGet]
  | cons p t ih =>
    simp only [alInsert]
    split
    · simp [alGet]
    · split
      · simp [alGet]
      · rename_i hlt hne
        have : p.1 ≠ k := fun h => hne h.symm
        simp [alGet, this, ih]

lemma foldl_evictStep_id {α : Type} [LinearOrder α] (w : Int) (v : α) :
    ∀ (l : List (α × Int × Int)) (st : Option α × Option Int),
      (∀ p ∈ l, ¬ qualifies w v p) → l.foldl (evictStep w v) st = st := by
  intro l
  induction l with
  | nil => intro st _; rfl
  | cons p t ih =>
    intro st h
    rw [List.foldl_cons]
    have hstep : evictStep w v st p = st := by
      unfold evictStep
      rw [if_neg (h p (List.mem_cons_self p t))]
    rw [hstep]
    exact ih st (fun q hq => h q (List.mem_cons_of_mem p hq))

lemma evictStep_isSome_mono {α : Type} [LinearOrder α] (w : Int) (v : α)
    (st : Option α × Option Int) (p : α × Int × Int)
    (h : st.1.isSome = true) : (evictStep w v st p).1.isSome = true := by
  unfold evictStep
  split
  · cases h2 : st.2 with
    | none => rfl
    | some t =>
      by_cases hlt : t < p.2.1
      · simp [hlt]
      · simpa [hlt] using h
  · exact h

lemma evictStep_pair {α : Type} [LinearOrder α] (w : Int) (v : α)
    (st : Option α × Option Int) (p : α × Int × Int)
    (h : st.1.isSome = st.2.isSome) :
    (evictStep w v st p).1.isSome = (evictStep w v st p).2.isSome := by
  unfold evictStep
  split
  · cases h2 : st.2 with
    | none => rfl
    | some t =>
      by_cases hlt : t < p.2.1
      · simp [hlt]
      · simpa [hlt] using h
  · exact h

lemma evictStep_isSome_of_qual {α : Type} [LinearOrder α] (w : Int) (v : α)
    (st : Option α × Option Int) (p : α × Int × Int)
    (hpair : st.1.isSome = st.2.isSome) (hq : qualifies w v p) :
    (evictStep w v st p).1.isSome = true := by
  unfold evictStep
  rw [if_pos hq]
  cases h2 : st.2 with
  | none => rfl
  | some t =>
    by_cases hlt : t < p.2.1
    · simp [hlt]
    · have : st.2.isSome = true := by rw [h2]; rfl
      simpa [hlt] using hpair.trans this

lemma foldl_evictStep_isSome {α : Type} [LinearOrder α] (w : Int) (v : α) :
    ∀ (l : List (α × Int × Int)) (st : Option α × Option Int),
      st.1.isSome = st.2.isSome →
      (st.1.isSome = true ∨ ∃ p ∈ l, qualifies w v p) →
      (l.foldl (evictStep w v) st).1.isSome = true := by
  intro l
  induction l with
  | nil =>
    intro st _ h
    rcases h with h | ⟨p, hp, _⟩
    · exact h
    · simp at hp
  | cons p t ih =>
    intro st hpair h
    rw [List.foldl_cons]
    refine ih (evictStep w v st p) (evictStep_pair w v st p hpair) ?_
    rcases h with h | ⟨q, hq, hqual⟩
    · exact Or.inl (evictStep_isSome_mono w v st p h)
    · rcases List.mem_cons.mp hq with rfl | hq
      · exact Or.inl (evictStep_isSome_of_qual w v st q hpair hqual)
      · exact Or.inr ⟨q, hq, hqual⟩

lemma evictScan_isSome_of_qual {α : Type} [LinearOrder α] (w : Int) (v : α)
    (l : List (α × Int × Int)) (h : ∃ p ∈ l, qualifies w v p) :
    ∃ o, (evictScan w v l).1 = some o := by
  have := foldl_evictStep_isSome w v l (none, none) rfl (Or.inr h)
  exact Option.isSome_iff_exists.mp this

/-- C4 amended: for a SizedFWWExpiringSet at capacity receiving an absent
entry, insert always drops the incoming entry without evicting; during
merge, if no current member qualifies (written strictly greater than the
incoming written, ties broken by value ordering) the set is unchanged, and
if some member qualifies then one qualifying member o is evicted, the
incoming entry is admitted, and the result is exactly the insertion of the
incoming entry into the set with o removed.  The evicted member is some
qualifying occupant, not necessarily the newest. -/
theorem C4_eviction_amended {α : Type} [LinearOrder α] [DecidableEq α]
    (s : SizedFWWExpiringSet α) (v : α) (w e now ei : Int)
    (habs : alGet v s.entries = none) (hcap : s.entries.length = s.cap) :
    (s.insert v now ei = s) ∧
    ((∀ p ∈ s.entries, ¬ qualifies w v p) → s.mergeEntry (v, w, e) = s) ∧
    ((∃ p ∈ s.entries, qualifies w v p) →
      ∃ o, (∃ q ∈ s.entries, q.1 = o ∧ qualifies w v q) ∧
        (s.mergeEntry (v, w, e)).entries
          = alInsert v (w, e) (alErase o s.entries) ∧
        alGet v (s.mergeEntry (v, w, e)).entries = some (w, e)) := by
  have hnotlt : ¬ s.entries.length < s.cap := by omega
  refine ⟨?_, ?_, ?_⟩
  · unfold SizedFWWExpiringSet.insert
    rw [habs]
    exact if_neg hnotlt
  · intro hnoq
    unfold SizedFWWExpiringSet.mergeEntry
    rw [habs]
    simp only
    rw [if_neg hnotlt]
    have hscan : evictScan w v s.entries = (none, none) := foldl_evictStep_id w v _ _ hnoq
    rw [hscan]
  · intro hq
    obtain ⟨o, hscan⟩ := evictScan_isSome_of_qual w v s.entries hq
    obtain ⟨q, hqmem, hqo, hqual⟩ := evictScan_mem w v o s.entries hscan
    have hres : (s.mergeEntry (v, w, e)).entries
        = alInsert v (w, e) (alErase o s.entries) := by
      unfold SizedFWWExpiringSet.mergeEntry
      rw [habs]
      simp only
      rw [if_neg hnotlt, hscan]
    exact ⟨o, ⟨q, hqmem, hqo, hqual⟩, hres,
      hres ▸ alGet_alInsert_self v (w, e) (alErase o s.entries)⟩

/-- Witness for C4 amended: the capacity-1 set holding 1 written at 5
receives the absent value 0: insert drops it, while the merge path evicts
the sole qualifying member and admits the incoming entry. -/
theorem C4_eviction_amended_witness :
    (SizedFWWExpiringSet.insert ⟨[((1 : Nat), 5, 10)], 1⟩ 0 2 3
      = ⟨[(1, 5, 10)], 1⟩) ∧
    (∃ o, (∃ q ∈ [((1 : Nat), 5, 10)], q.1 = o ∧ qualifies 0 0 q) ∧
      (SizedFWWExpiringSet.mergeEntry ⟨[((1 : Nat), 5, 10)], 1⟩ (0, 0, 99)).entries
        = alInsert 0 (0, 99) (alErase o [(1, 5, 10)]) ∧
      alGet 0 (SizedFWWExpiringSet.mergeEntry
        ⟨[((1 : Nat), 5, 10)], 1⟩ (0, 0, 99)).entries = some (0, 99)) := by
  have h := C4_eviction_amended (⟨[((1 : Nat), 5, 10)], 1⟩ : SizedFWWExpiringSet Nat)
    0 0 99 2 3 (by decide) (by decide)
  exact ⟨h.1, h.2.2 ⟨(1, 5, 10), by simp, by decide⟩⟩

lemma alGet_mem {α β : Type} [DecidableEq α] (k : α) (v : β) :
    ∀ (l : List (α × β)), alGet k l = some v → (k, v) ∈ l := by
  intro l
  induction l with
  | nil => intro h; simp [alGet] at h
  | cons p t ih =>
    intro h
    unfold alGet at h
    split at h
    · rename_i heq
      have hv := Option.some_inj.mp h
      rw [show (k, v) = p from (Prod.ext heq hv).symm]
      exact List.mem_cons_self p t
    · exact List.mem_cons_of_mem p (ih h)

lemma reconstruct_mem (came : List (Loc × Loc)) :
    ∀ (n : Nat) (cur x : Loc), x ∈ reconstruct came cur n →
      ∃ a, (a, x) ∈ came := by
  intro n
  induction n with
  | zero => intro cur x hx; simp [reconstruct] at hx
  | succ m ih =>
    intro cur x hx
    unfold reconstruct at hx
    cases hget : alGet cur came with
    | none => rw [hget] at hx; simp at hx
    | some p =>
      rw [hget] at hx
      simp only [List.mem_cons] at hx
      rcases hx with rfl | hx
      · exact ⟨cur, alGet_mem cur x came hget⟩
      · exact ih p x hx

lemma mem_eraseFirst {α : Type} [DecidableEq α] (x y : α) :
    ∀ (l : List α), y ∈ eraseFirst x l → y ∈ l := by
  intro l
  induction l with
  | nil => intro h; simp [eraseFirst] at h
  | cons e t ih =>
    intro h
    unfold eraseFirst at h
    split at h
    · exact List.mem_cons_of_mem e h
    · rcases List.mem_cons.mp h with rfl | h
      · exact List.mem_cons_self y t
      · exact List.mem_cons_of_mem e (ih h)

lemma foldl_min_mem :
    ∀ (t : List (FKey × Loc)) (e : FKey × Loc),
      t.foldl (fun best x => if keyLt x best then x else best) e = e ∨
        t.foldl (fun best x => if keyLt x best then x else best) e ∈ t := by
  intro t
  induction t with
  | nil => intro e; exact Or.inl rfl
  | cons a t ih =>
    intro e
    rw [List.foldl_cons]
    rcases ih (if keyLt a e then a else e) with h | h
    · rw [h]
      by_cases hk : keyLt a e
      · rw [if_pos hk]
        exact Or.inr (List.mem_cons_self a t)
      · rw [if_neg hk]
        exact Or.inl rfl
    · exact Or.inr (List.mem_cons_of_mem a h)

lemma popMin_sub (l rest : List (FKey × Loc)) (m : FKey × Loc)
    (h : popMin l = some (m, rest)) :
    m ∈ l ∧ ∀ y ∈ rest, y ∈ l := by
  cases l with
  | nil => simp [popMin] at h
  | cons e t =>
    unfold popMin at h
    simp only at h
    have hm := congrArg Prod.fst (Option.some_inj.mp h)
    have hrest := congrArg Prod.snd (Option.some_inj.mp h)
    simp only at hm hrest
    constructor
    · rw [← hm]
      rcases foldl_min_mem t e with h1 | h1
      · rw [h1]; exact List.mem_cons_self e t
      · exact List.mem_cons_of_mem e h1
    · intro y hy
      rw [← hrest] at hy
      exact mem_eraseFirst _ y (e :: t) hy

lemma upsert_mem {α β : Type} [DecidableEq α] (k : α) (v : β) (x : α × β) :
    ∀ (l : List (α × β)), x ∈ upsert k v l → x = (k, v) ∨ x ∈ l := by
  intro l
  induction l with
  | nil => intro h; simp [upsert] at h; exact Or.inl h
  | cons p t ih =>
    intro h
    unfold upsert at h
    split at h
    · rcases List.mem_cons.mp h with rfl | h
      · exact Or.inl rfl
      · exact Or.inr (List.mem_cons_of_mem p h)
    · rcases List.mem_cons.mp h with rfl | h
      · exact Or.inr (List.mem_cons_self x t)
      · rcases ih h with h1 | h1
        · exact Or.inl h1
        · exact Or.inr (List.mem_cons_of_mem p h1)

lemma expandOne_inv (gl cl : Loc) (expl : Loc → Option Bool)
    (blocked avoid : Loc → Bool) (loc : Loc) (base : Nat) (st : AState)
    (off : Int × Int)
    (hopen : ∀ e ∈ st.openSet, e.2 = gl ∨ passOk expl blocked e.2 = true)
    (hcame : ∀ e ∈ st.cameFrom, e.2 = gl ∨ passOk expl blocked e.2 = true)
    (hloc : loc = gl ∨ passOk expl blocked loc = true) :
    (∀ e ∈ (expandOne cl expl blocked avoid loc base st off).openSet,
        e.2 = gl ∨ passOk expl blocked e.2 = true) ∧
    (∀ e ∈ (expandOne cl expl blocked avoid loc base st off).cameFrom,
        e.2 = gl ∨ passOk expl blocked e.2 = true) := by
  unfold expandOne
  by_cases hpass : passOk expl blocked ⟨loc.x + off.1, loc.y + off.2⟩ = true
  · simp only [hpass, if_true]
    by_cases hscore : base + (if avoid ⟨loc.x + off.1, loc.y + off.2⟩ then 10 else 0)
        < (alGet ⟨loc.x + off.1, loc.y + off.2⟩ st.gScores).getD FMAX
    · rw [if_pos hscore]
      constructor
      · intro e he
        simp only at he
        by_cases hany : st.openSet.any
            (fun en => en.2 = (⟨loc.x + off.1, loc.y + off.2⟩ : Loc))
        · rw [if_pos hany] at he
          exact hopen e he
        · rw [if_neg hany] at he
          rcases List.mem_cons.mp he with rfl | he
          · exact Or.inr hpass
          · exact hopen e he
      · intro e he
        simp only at he
        rcases upsert_mem _ loc e st.cameFrom he with rfl | he
        · exact hloc
        · exact hcame e he
    · rw [if_neg hscore]
      exact ⟨hopen, hcame⟩
  · simp only [eq_false_of_ne_true hpass, if_false]
    exact ⟨hopen, hcame⟩

lemma expandSteps_inv (gl cl : Loc) (expl : Loc → Option Bool)
    (blocked avoid : Loc → Bool) (loc : Loc) (base : Nat) :
    ∀ (offs : List (Int × Int)) (st : AState),
      (∀ e ∈ st.openSet, e.2 = gl ∨ passOk expl blocked e.2 = true) →
      (∀ e ∈ st.cameFrom, e.2 = gl ∨ passOk expl blocked e.2 = true) →
      (loc = gl ∨ passOk expl blocked loc = true) →
      (∀ e ∈ (offs.foldl (expandOne cl expl blocked avoid loc base) st).openSet,
          e.2 = gl ∨ passOk expl blocked e.2 = true) ∧
      (∀ e ∈ (offs.foldl (expandOne cl expl blocked avoid loc base) st).cameFrom,
          e.2 = gl ∨ passOk expl blocked e.2 = true) := by
  intro offs
  induction offs with
  | nil => intro st h1 h2 _; exact ⟨h1, h2⟩
  | cons o t ih =>
    intro st h1 h2 hloc
    rw [List.foldl_cons]
    have hstep := expandOne_inv gl cl expl blocked avoid loc base st o h1 h2 hloc
    exact ih _ hstep.1 hstep.2 hloc

lemma astarLoop_spec (cl gl : Loc) (expl : Loc → Option Bool)
    (blocked avoid : Loc → Bool) :
    ∀ (fuel : Nat) (st : AState) (path : List Loc),
      (∀ e ∈ st.openSet, e.2 = gl ∨ passOk expl blocked e.2 = true) →
      (∀ e ∈ st.cameFrom, e.2 = gl ∨ passOk expl blocked e.2 = true) →
      astarLoop cl expl blocked avoid fuel st = some path →
      ∀ x ∈ path, x = gl ∨ passOk expl blocked x = true := by
  intro fuel
  induction fuel with
  | zero =>
    intro st path _ _ hres
    simp [astarLoop] at hres
  | succ n ih =>
    intro st path hopen hcame hres
    rw [astarLoop] at hres
    cases hpop : popMin st.openSet with
    | none => rw [hpop] at hres; simp at hres
    | some pr =>
      obtain ⟨⟨k, loc⟩, rest⟩ := pr
      rw [hpop] at hres
      simp only at hres
      have hmem := popMin_sub st.openSet rest (k, loc) hpop
      by_cases hcl : loc = cl
      · rw [if_pos hcl] at hres
        have hpath := Option.some_inj.mp hres
        intro x hx
        rw [← hpath] at hx
        obtain ⟨a, ha⟩ := reconstruct_mem st.cameFrom _ loc x hx
        exact hcame (a, x) ha
      · rw [if_neg hcl] at hres
        have hloc : loc = gl ∨ passOk expl blocked loc = true :=
          hopen (k, loc) hmem.1
        have hrest : ∀ e ∈ rest, e.2 = gl ∨ passOk expl blocked e.2 = true :=
          fun e he => hopen e (hmem.2 e he)
        have hinv := expandSteps_inv gl cl expl blocked avoid loc
          (match alGet loc st.gScores with
            | some s => s + 1
            | none => FMAX) offsets
          ⟨rest, st.gScores, st.cameFrom⟩ hrest hcame hloc
        exact ih _ path hinv.1 hinv.2 hres

/-- C7 amended: every location of a path returned by astar, other than the
goal itself, is outside the blocked set and not marked impassable in the
explored-tiles map.  The goal is the one exception: it enters the search
unchecked. -/
theorem C7_astar_path_avoids_blocked (cl goal : Loc) (expl : Loc → Option Bool)
    (blocked avoid : Loc → Bool) (path : List Loc)
    (h : astar cl goal expl blocked avoid = some path) :
    ∀ x ∈ path, x ≠ goal → passOk expl blocked x = true := by
  intro x hx hne
  have hspec := astarLoop_spec cl goal expl blocked avoid 1000
    ⟨[((0, sqDist cl goal), goal)], [(goal, 0)], []⟩ path ?_ ?_ h x hx
  · rcases hspec with h1 | h1
    · exact absurd h1 hne
    · exact h1
  · intro e he
    simp only [List.mem_singleton] at he
    rw [he]
    exact Or.inl rfl
  · intro e he
    simp at he

/-- Witness for C7 amended: on the open unknown map with empty blocked and
avoid sets, the two-step path toward the goal two tiles east consists of
check-passing locations apart from the goal. -/
theorem C7_astar_path_avoids_blocked_witness :
    astar ⟨0, 0⟩ ⟨2, 0⟩ (fun _ => none) (fun _ => false) (fun _ => false)
      = some [⟨1, 0⟩, ⟨2, 0⟩] ∧
    (∀ x ∈ ([⟨1, 0⟩, ⟨2, 0⟩] : List Loc), x ≠ ⟨2, 0⟩ →
      passOk (fun _ => none) (fun _ => false) x = true) := by
  have hrun : astar ⟨0, 0⟩ ⟨2, 0⟩ (fun _ => none) (fun _ => false) (fun _ => false)
      = some [⟨1, 0⟩, ⟨2, 0⟩] := by decide
  exact ⟨hrun, C7_astar_path_avoids_blocked ⟨0, 0⟩ ⟨2, 0⟩ (fun _ => none)
    (fun _ => false) (fun _ => false) [⟨1, 0⟩, ⟨2, 0⟩] hrun⟩
